import Mathlib

/-!
Shallow embedding of the MyWheels real-time availability script.

This file embeds the availability-window reduction engine of `main.py`:
the interval merger (`merge_blocks`), the window clipper, the availability
classifier, the margin corrector and the interval formatter, together with
the per-resource pipeline `build_availability_for_car`.

Timestamps (`datetime` values) are modelled as integers counting minutes;
`timedelta(minutes=m)` becomes addition of `m`.  The configured constants
`FREE_REQUIRED_MINUTES` (threshold) and `BLOCK_MINUTES` (margin) are kept
as explicit parameters of the embedded functions.
-/

/-- A busy time block, the Python pair `(s, e)` of datetimes. -/
abbrev Block := Int × Int

/-- Outcome of reading one date marker off a raw slot record: the field can
be absent or falsy (`not start_str`), present but rejected by
`parse_slot_datetime`, or parse to a time. -/
inductive Marker where
  | missing
  | unparsable
  | parsed (t : Int)
deriving DecidableEq

/-- Whether a marker parses to a time. -/
def Marker.parses : Marker → Bool
  | .parsed _ => true
  | _ => false

/-- A raw slot record as consumed by the loop in `build_availability_for_car`
(main.py lines 254-273): it may fail `isinstance(slot, dict)`, its
`startDate` / `endDate` markers may be missing or unparsable, and
`refuelTime` is `some r` when numeric (`slot.get` defaults it to `0`, so an
absent field is `some 0`) and `none` when present but non-numeric. -/
structure RawSlot where
  isDict : Bool
  startDate : Marker
  endDate : Marker
  refuelTime : Option Int
deriving DecidableEq

/-- Conversion of one raw slot record to a candidate busy interval
(main.py lines 254-273): non-dict records and records with a missing or
unparsable marker are skipped with `continue`; a numeric `refuelTime` is
added to the parsed end marker. -/
def slotInterval (slot : RawSlot) : Option Block :=
  if slot.isDict = false then none
  else
    match slot.startDate, slot.endDate with
    | .parsed s, .parsed e =>
        some (s, match slot.refuelTime with
                 | some r => e + r
                 | none => e)
    | _, _ => none

/-- The window clipper (main.py lines 276-281): `if e <= start_dt or
s >= end_dt: continue`, then `s = max(s, start_dt); e = min(e, end_dt)`. -/
def clip_to_window (start_dt end_dt : Int) (b : Block) : Option Block :=
  if b.2 ≤ start_dt ∨ end_dt ≤ b.1 then none
  else some (max b.1 start_dt, min b.2 end_dt)

/-- The sort key comparison used by `merge_blocks`:
`sorted(blocks, key=lambda x: x[0])` compares first components only.
Python's `sorted` is stable, as is `List.mergeSort`. -/
def blockLE (a b : Block) : Bool := decide (a.1 ≤ b.1)

/-- The fold of `merge_blocks` (main.py lines 136-141): `cur` is the last
element of the accumulator `merged`; `if s <= last_e` the last element is
replaced by `(last_s, max(last_e, e))`, otherwise `(s, e)` is appended. -/
def mergeLoop : Block → List Block → List Block
  | cur, [] => [cur]
  | cur, (s, e) :: rest =>
      if s ≤ cur.2 then mergeLoop (cur.1, max cur.2 e) rest
      else cur :: mergeLoop (s, e) rest

/-- The merger `merge_blocks` (main.py lines 130-142): sort by start, then fold,
merging the accumulator's last block with the next one when they touch or
overlap. -/
def merge_blocks (blocks : List Block) : List Block :=
  match blocks.mergeSort blockLE with
  | [] => []
  | b :: bs => mergeLoop b bs

/-- Two-digit zero padding used by `strftime` for hours and minutes. -/
def two_digits (n : Nat) : String :=
  (if n < 10 then "0" else "") ++ toString n

/-- Rendering of `strftime('%H:%M')` on a minute-counting timestamp: clock time of day. -/
def hhmm (t : Int) : String :=
  let m := (t % 1440).toNat
  two_digits (m / 60) ++ ":" ++ two_digits (m % 60)

/-- The formatter `format_blocks` (main.py lines 145-150): render each block as
`HH:MM–HH:MM` and join with `', '`. -/
def format_blocks (blocks : List Block) : String :=
  String.intercalate ", " (blocks.map (fun b => hhmm b.1 ++ "–" ++ hhmm b.2))

/-- The availability classifier loop (main.py lines 289-302): a cursor
`current` starts at `start_dt`; for each block, if `s > current` and
`s - current >= FREE_REQUIRED_MINUTES` a free period is found (`break`),
otherwise `current = max(current, e)`; after the loop, `if current < end_dt`
and `end_dt - current >= FREE_REQUIRED_MINUTES` a free period is found. -/
def free_scan (threshold end_dt : Int) : Int → List Block → Bool
  | current, [] => decide (current < end_dt) && decide (threshold ≤ end_dt - current)
  | current, (s, e) :: rest =>
      if current < s ∧ threshold ≤ s - current then true
      else free_scan threshold end_dt (max current e) rest

/-- One step of the margin corrector (main.py lines 310-321): shrink the end
inward by the margin when `e < end_dt`, shrink the start later by the margin
when `s > start_dt`, and keep the block only `if new_e > new_s`. -/
def shrink_block (margin start_dt end_dt : Int) (b : Block) : Option Block :=
  let new_e := if b.2 < end_dt then b.2 - margin else b.2
  let new_s := if start_dt < b.1 then b.1 + margin else b.1
  if new_s < new_e then some (new_s, new_e) else none

/-- The margin corrector (main.py lines 307-323): shrink every block and
re-merge the survivors. -/
def margin_correct (margin start_dt end_dt : Int) (blocks : List Block) : List Block :=
  merge_blocks (blocks.filterMap (shrink_block margin start_dt end_dt))

/-- The per-resource output record (main.py lines 327-330). -/
structure AvailabilityResult where
  no_availability_all_day : Bool
  conflict_tijden : String
deriving DecidableEq

/-- The merged, window-clipped conflict blocks of a slot list
(main.py lines 250-286): convert each slot, clip it to the window, collect
the survivors and merge them. -/
def conflict_blocks_of (start_dt end_dt : Int) (slots : List RawSlot) : List Block :=
  merge_blocks (slots.filterMap
    (fun slot => (slotInterval slot).bind (clip_to_window start_dt end_dt)))

/-- The body of `build_availability_for_car` after a successful fetch
(main.py lines 250-330): clip, merge, classify, apply the margin corrector
only when the car is not all-day busy, and format. -/
def build_from_slots (threshold margin start_dt end_dt : Int)
    (slots : List RawSlot) : AvailabilityResult :=
  let blocks := conflict_blocks_of start_dt end_dt slots
  let free_period_found := free_scan threshold end_dt start_dt blocks
  let no_availability_all_day := !free_period_found
  let final := if no_availability_all_day then blocks
               else margin_correct margin start_dt end_dt blocks
  ⟨no_availability_all_day, if final.isEmpty then "" else format_blocks final⟩

/-- The pipeline `build_availability_for_car` (main.py lines 237-330).  The fetch
`fetch_calendar_availability` is IO; its outcome is passed in as an
`Except`: `.error` models any exception raised by the fetch, in which case
the function returns the fail-open default (lines 241-248). -/
def build_availability_for_car (threshold margin start_dt end_dt : Int)
    (fetched : Except Unit (List RawSlot)) : AvailabilityResult :=
  match fetched with
  | .error _ => ⟨false, ""⟩
  | .ok slots => build_from_slots threshold margin start_dt end_dt slots

/-- Starts are pairwise nondecreasing: the order produced by the sort. -/
abbrev sortedByStart (l : List Block) : Prop :=
  l.Pairwise (fun a b => a.1 ≤ b.1)

/-- The merger's disjointness invariant: every pair of consecutive blocks
`a, b` satisfies `a.end < b.start`. -/
abbrev disjointChain (l : List Block) : Prop :=
  l.Chain' (fun a b => a.2 < b.1)

/-- A time point lies inside a block; blocks are closed-open ranges. -/
abbrev inBlock (t : Int) (b : Block) : Prop :=
  b.1 ≤ t ∧ t < b.2

/-- Modelled from the spec (refinement reference for claim C2): the
classifier described by the spec, with a cursor advanced to
`max(cursor, interval.end)` after each interval; available when some
interval has `interval.start - cursor >= threshold` or when
`window.end - cursor >= threshold` after the last interval. -/
def spec_scan (threshold end_dt : Int) : Int → List Block → Bool
  | cursor, [] => decide (threshold ≤ end_dt - cursor)
  | cursor, (s, e) :: rest =>
      decide (threshold ≤ s - cursor) || spec_scan threshold end_dt (max cursor e) rest

/-- Modelled from the spec (refinement reference for claim C6): shift the
start later by the margin unless it equals `window.start`, shift the end
earlier unless it equals `window.end`, and drop the block when
`end <= start`. -/
def shrink_block_spec (margin start_dt end_dt : Int) (b : Block) : Option Block :=
  let new_s := if b.1 = start_dt then b.1 else b.1 + margin
  let new_e := if b.2 = end_dt then b.2 else b.2 - margin
  if new_e ≤ new_s then none else some (new_s, new_e)

/-- Modelled from the spec (refinement reference for claim C6): the margin
corrector as the spec words it, followed by the same re-merge. -/
def margin_correct_spec (margin start_dt end_dt : Int) (blocks : List Block) : List Block :=
  merge_blocks (blocks.filterMap (shrink_block_spec margin start_dt end_dt))

/-! ## Properties of the interval merger -/

theorem blockLE_trans (a b c : Block) (hab : blockLE a b = true) (hbc : blockLE b c = true) :
    blockLE a c = true := by
  simp only [blockLE, decide_eq_true_eq] at *
  omega

theorem blockLE_total (a b : Block) : blockLE a b || blockLE b a := by
  simp only [blockLE]
  rcases le_total a.1 b.1 with h | h <;> simp [h]

theorem mergeLoop_shape : ∀ (xs : List Block) (cur : Block),
    ∃ e tail, mergeLoop cur xs = (cur.1, e) :: tail ∧ cur.2 ≤ e
  | [], cur => ⟨cur.2, [], rfl, le_refl _⟩
  | (s, e) :: rest, cur => by
    rw [mergeLoop]
    split
    · obtain ⟨e', t', heq, hle⟩ := mergeLoop_shape rest (cur.1, max cur.2 e)
      exact ⟨e', t', heq, le_trans (le_max_left _ _) hle⟩
    · exact ⟨cur.2, mergeLoop (s, e) rest, rfl, le_refl _⟩

theorem mergeLoop_start_lb : ∀ (xs : List Block) (cur : Block) (lb : Int),
    lb ≤ cur.1 → (∀ b ∈ xs, lb ≤ b.1) → ∀ c ∈ mergeLoop cur xs, lb ≤ c.1
  | [], cur, lb, h1, _, c, hc => by
    simp only [mergeLoop, List.mem_singleton] at hc
    subst hc
    exact h1
  | (s, e) :: rest, cur, lb, h1, h2, c, hc => by
    rw [mergeLoop] at hc
    split at hc
    · exact mergeLoop_start_lb rest (cur.1, max cur.2 e) lb h1
        (fun b hb => h2 b (List.mem_cons_of_mem _ hb)) c hc
    · rcases List.mem_cons.1 hc with h | h
      · subst h
        exact h1
      · exact mergeLoop_start_lb rest (s, e) lb (h2 (s, e) (List.mem_cons_self _ _))
          (fun b hb => h2 b (List.mem_cons_of_mem _ hb)) c h

theorem mergeLoop_chain : ∀ (xs : List Block) (cur : Block),
    sortedByStart (cur :: xs) → disjointChain (mergeLoop cur xs)
  | [], cur, _ => by
    simp [mergeLoop]
  | (s, e) :: rest, cur, hsorted => by
    obtain ⟨hcur, htail⟩ := List.pairwise_cons.1 hsorted
    rw [mergeLoop]
    split
    · rename_i hmerge
      apply mergeLoop_chain rest (cur.1, max cur.2 e)
      exact List.pairwise_cons.2 ⟨fun b hb => hcur b (List.mem_cons_of_mem _ hb), htail.tail⟩
    · rename_i hnomerge
      obtain ⟨e', t', heq, _⟩ := mergeLoop_shape rest (s, e)
      have hrec : disjointChain (mergeLoop (s, e) rest) := mergeLoop_chain rest (s, e) htail
      rw [heq] at hrec ⊢
      exact List.chain'_cons.2 ⟨by omega, hrec⟩

theorem mergeLoop_sorted : ∀ (xs : List Block) (cur : Block),
    sortedByStart (cur :: xs) → sortedByStart (mergeLoop cur xs)
  | [], cur, _ => by
    simp [mergeLoop]
  | (s, e) :: rest, cur, hsorted => by
    obtain ⟨hcur, htail⟩ := List.pairwise_cons.1 hsorted
    rw [mergeLoop]
    split
    · rename_i hmerge
      apply mergeLoop_sorted rest (cur.1, max cur.2 e)
      exact List.pairwise_cons.2 ⟨fun b hb => hcur b (List.mem_cons_of_mem _ hb), htail.tail⟩
    · rename_i hnomerge
      refine List.pairwise_cons.2 ⟨fun c hc => ?_, mergeLoop_sorted rest (s, e) htail⟩
      exact mergeLoop_start_lb rest (s, e) cur.1 (hcur (s, e) (List.mem_cons_self _ _))
        (fun b hb => hcur b (List.mem_cons_of_mem _ hb)) c hc

theorem mergeLoop_of_chain : ∀ (xs : List Block) (cur : Block),
    disjointChain (cur :: xs) → mergeLoop cur xs = cur :: xs
  | [], cur, _ => rfl
  | (s, e) :: rest, cur, hchain => by
    obtain ⟨hrel, htail⟩ := List.chain'_cons.1 hchain
    rw [mergeLoop, if_neg (by omega)]
    rw [mergeLoop_of_chain rest (s, e) htail]

theorem sortedByStart_mergeSort (xs : List Block) : sortedByStart (xs.mergeSort blockLE) :=
  (List.sorted_mergeSort blockLE_trans blockLE_total xs).imp
    (fun h => by simpa [blockLE] using h)

theorem merge_blocks_sorted (xs : List Block) : sortedByStart (merge_blocks xs) := by
  unfold merge_blocks
  split
  · exact List.Pairwise.nil
  · rename_i b bs h
    have hs := sortedByStart_mergeSort xs
    rw [h] at hs
    exact mergeLoop_sorted bs b hs

theorem merge_blocks_chain (xs : List Block) : disjointChain (merge_blocks xs) := by
  unfold merge_blocks
  split
  · exact List.chain'_nil
  · rename_i b bs h
    have hs := sortedByStart_mergeSort xs
    rw [h] at hs
    exact mergeLoop_chain bs b hs

theorem merge_blocks_eq_self (l : List Block) (hs : sortedByStart l) (hc : disjointChain l) :
    merge_blocks l = l := by
  have hsort : l.mergeSort blockLE = l :=
    List.mergeSort_of_sorted (hs.imp fun h => by simpa [blockLE] using h)
  unfold merge_blocks
  rw [hsort]
  cases l with
  | nil => rfl
  | cons b bs => exact mergeLoop_of_chain bs b hc

/-- Evaluation helper: merging a singleton list. -/
theorem merge_blocks_singleton (b : Block) : merge_blocks [b] = [b] := by
  rw [merge_blocks, List.mergeSort_singleton]
  rfl

/-- Evaluation helper: merging an already sorted list skips the sort. -/
theorem merge_blocks_cons_of_sorted (b : Block) (bs : List Block)
    (h : List.Pairwise (fun x y => blockLE x y = true) (b :: bs)) :
    merge_blocks (b :: bs) = mergeLoop b bs := by
  rw [merge_blocks, List.mergeSort_of_sorted h]

/-- C3: `merge_blocks` is idempotent: for every list of intervals, applying
the merger to its own output returns the same list. -/
theorem merge_blocks_idempotent (xs : List Block) :
    merge_blocks (merge_blocks xs) = merge_blocks xs :=
  merge_blocks_eq_self _ (merge_blocks_sorted xs) (merge_blocks_chain xs)

/-- C4: for every input list of intervals with `start < end`, the output of
`merge_blocks` is ordered and disjoint: no two consecutive blocks `a` (before)
and `b` satisfy `a.end >= b.start`; and the touching blocks 10:00-10:20 and
10:20-11:00 coalesce into the single block 10:00-11:00. -/
theorem merge_blocks_disjoint :
    (∀ xs : List Block, (∀ b ∈ xs, b.1 < b.2) →
      (merge_blocks xs).Chain' (fun a b => ¬(b.1 ≤ a.2)) ∧ sortedByStart (merge_blocks xs))
    ∧ merge_blocks [((600 : Int), (620 : Int)), (620, 660)] = [(600, 660)] := by
  constructor
  · intro xs _
    refine ⟨(merge_blocks_chain xs).imp (fun h => by omega), merge_blocks_sorted xs⟩
  · rw [merge_blocks_cons_of_sorted _ _ (by decide)]
    rfl

theorem mergeLoop_coverage : ∀ (xs : List Block) (cur : Block) (t : Int),
    sortedByStart (cur :: xs) →
    ((∃ b ∈ mergeLoop cur xs, inBlock t b) ↔ inBlock t cur ∨ ∃ b ∈ xs, inBlock t b)
  | [], cur, t, _ => by
    simp [mergeLoop]
  | (s, e) :: rest, cur, t, hsorted => by
    obtain ⟨hcur, htail⟩ := List.pairwise_cons.1 hsorted
    have hcs : cur.1 ≤ s := hcur (s, e) (List.mem_cons_self _ _)
    rw [mergeLoop]
    split
    · rename_i hmerge
      have hrec := mergeLoop_coverage rest (cur.1, max cur.2 e) t
        (List.pairwise_cons.2 ⟨fun b hb => hcur b (List.mem_cons_of_mem _ hb), htail.tail⟩)
      rw [hrec]
      have key : inBlock t (cur.1, max cur.2 e) ↔ inBlock t cur ∨ inBlock t (s, e) := by
        simp only [inBlock]
        omega
      rw [key]
      simp only [List.mem_cons, exists_eq_or_imp]
      rw [or_assoc]
    · rename_i hnomerge
      have hrec := mergeLoop_coverage rest (s, e) t htail
      simp only [List.mem_cons, exists_eq_or_imp] at hrec ⊢
      rw [hrec]

/-- C10: `merge_blocks` preserves coverage: for every input list of blocks
with `start < end`, a time point lies inside some block of the merger's
output iff it lies inside some block of the input. -/
theorem merge_blocks_coverage (xs : List Block) (_hwf : ∀ b ∈ xs, b.1 < b.2) (t : Int) :
    (∃ b ∈ merge_blocks xs, inBlock t b) ↔ ∃ b ∈ xs, inBlock t b := by
  have hperm : ∀ x : Block, x ∈ xs.mergeSort blockLE ↔ x ∈ xs := fun x => List.mem_mergeSort
  unfold merge_blocks
  split
  · rename_i h
    rw [h] at hperm
    constructor
    · rintro ⟨b, hb, _⟩
      exact absurd hb (by simp)
    · rintro ⟨b, hb, hin⟩
      exact absurd ((hperm b).2 hb) (by simp)
  · rename_i b bs h
    have hs : sortedByStart (b :: bs) := by
      have := sortedByStart_mergeSort xs
      rw [h] at this
      exact this
    rw [h] at hperm
    rw [mergeLoop_coverage bs b t hs]
    constructor
    · rintro (hb | ⟨c, hc, hin⟩)
      · exact ⟨b, (hperm b).1 (List.mem_cons_self _ _), hb⟩
      · exact ⟨c, (hperm c).1 (List.mem_cons_of_mem _ hc), hin⟩
    · rintro ⟨c, hc, hin⟩
      rcases List.mem_cons.1 ((hperm c).2 hc) with rfl | hmem
      · exact Or.inl hin
      · exact Or.inr ⟨c, hmem, hin⟩

/-- A witness for the hypotheses of the coverage theorem. -/
theorem merge_blocks_coverage_witness :
    (∀ b ∈ [((0 : Int), (2 : Int)), (1, 4)], b.1 < b.2)
    ∧ ((∃ b ∈ merge_blocks [((0 : Int), (2 : Int)), (1, 4)], inBlock 3 b)
        ↔ ∃ b ∈ [((0 : Int), (2 : Int)), (1, 4)], inBlock 3 b) :=
  ⟨by decide, merge_blocks_coverage [(0, 2), (1, 4)] (by decide) 3⟩

theorem free_scan_eq_spec_scan (threshold end_dt : Int) (hthr : 0 < threshold) :
    ∀ (xs : List Block) (current : Int),
      free_scan threshold end_dt current xs = spec_scan threshold end_dt current xs
  | [], current => by
    simp only [free_scan, spec_scan]
    by_cases h : threshold ≤ end_dt - current
    · simp [h]
      omega
    · simp [h]
  | (s, e) :: rest, current => by
    simp only [free_scan, spec_scan]
    by_cases h : threshold ≤ s - current
    · rw [if_pos ⟨by omega, h⟩]
      simp [h]
    · rw [if_neg (by omega)]
      simp [h, free_scan_eq_spec_scan threshold end_dt hthr rest (max current e)]

/-- C2: for every window with `start < end` (and the configured positive
minimum-free-duration threshold), the classifier finds a free period iff the
spec's cursor scan does: some block has `start - cursor >= threshold`, or
`window.end - cursor >= threshold` after the last block; on the empty block
list it is available iff `window.end - window.start >= threshold`; and the
pipeline's `no_availability_all_day` is the negation of the classifier. -/
theorem classifier_correct (threshold margin start_dt end_dt : Int)
    (hthr : 0 < threshold) (_hw : start_dt < end_dt) :
    (∀ blocks : List Block,
      free_scan threshold end_dt start_dt blocks = spec_scan threshold end_dt start_dt blocks)
    ∧ (free_scan threshold end_dt start_dt [] = decide (threshold ≤ end_dt - start_dt))
    ∧ ∀ slots : List RawSlot,
        (build_from_slots threshold margin start_dt end_dt slots).no_availability_all_day
          = !free_scan threshold end_dt start_dt (conflict_blocks_of start_dt end_dt slots) := by
  refine ⟨fun blocks => free_scan_eq_spec_scan threshold end_dt hthr blocks start_dt, ?_, ?_⟩
  · rw [free_scan_eq_spec_scan threshold end_dt hthr [] start_dt]
    rfl
  · intro slots
    rfl

/-- Concrete instance discharging the hypotheses of `classifier_correct`. -/
theorem classifier_correct_witness :
    (0 : Int) < 30 ∧ (540 : Int) < 1140
    ∧ free_scan 30 1140 540 [((600 : Int), (660 : Int))]
        = spec_scan 30 1140 540 [((600 : Int), (660 : Int))]
    ∧ free_scan 30 1140 540 [] = decide ((30 : Int) ≤ 1140 - 540)
    ∧ (build_from_slots 30 15 540 1140 [⟨true, .parsed 600, .parsed 660, some 0⟩]).no_availability_all_day
        = !free_scan 30 1140 540 (conflict_blocks_of 540 1140 [⟨true, .parsed 600, .parsed 660, some 0⟩]) :=
  ⟨by decide, by decide,
    (classifier_correct 30 15 540 1140 (by decide) (by decide)).1 [(600, 660)],
    (classifier_correct 30 15 540 1140 (by decide) (by decide)).2.1,
    (classifier_correct 30 15 540 1140 (by decide) (by decide)).2.2
      [⟨true, .parsed 600, .parsed 660, some 0⟩]⟩

/-- C5: for every candidate block with `start < end` and window with
`start < end`, the clipper discards the block iff `end <= window.start` or
`start >= window.end`; otherwise it outputs
`(max(start, window.start), min(end, window.end))`, and every surviving
clipped block satisfies `window.start <= start < end <= window.end`. -/
theorem clip_to_window_correct (b : Block) (wS wE : Int)
    (hb : b.1 < b.2) (hw : wS < wE) :
    (clip_to_window wS wE b = none ↔ (b.2 ≤ wS ∨ wE ≤ b.1))
    ∧ ∀ c, clip_to_window wS wE b = some c →
        c = (max b.1 wS, min b.2 wE) ∧ wS ≤ c.1 ∧ c.1 < c.2 ∧ c.2 ≤ wE := by
  unfold clip_to_window
  split
  · rename_i h
    exact ⟨by simp [h], fun c hc => by simp at hc⟩
  · rename_i h
    push_neg at h
    refine ⟨by simp; omega, fun c hc => ?_⟩
    have hc' : c = (max b.1 wS, min b.2 wE) := (Option.some.injEq _ _ ▸ hc).symm
    subst hc'
    refine ⟨rfl, ?_, ?_, ?_⟩ <;> simp only [Prod.fst, Prod.snd] <;> omega

/-- Concrete instance discharging the hypotheses of `clip_to_window_correct`. -/
theorem clip_to_window_correct_witness :
    (500 : Int) < 600 ∧ (540 : Int) < 1140
    ∧ ((clip_to_window 540 1140 (500, 600) = none ↔ ((600 : Int) ≤ 540 ∨ (1140 : Int) ≤ 500))
      ∧ ∀ c, clip_to_window 540 1140 (500, 600) = some c →
          c = (max (500 : Int) 540, min (600 : Int) 1140) ∧ 540 ≤ c.1 ∧ c.1 < c.2 ∧ c.2 ≤ 1140) :=
  ⟨by decide, by decide, clip_to_window_correct (500, 600) 540 1140 (by decide) (by decide)⟩

theorem shrink_block_eq_spec (m wS wE : Int) (b : Block)
    (h1 : wS ≤ b.1) (h2 : b.2 ≤ wE) :
    shrink_block m wS wE b = shrink_block_spec m wS wE b := by
  have hE : (if b.2 < wE then b.2 - m else b.2) = (if b.2 = wE then b.2 else b.2 - m) := by
    split_ifs <;> omega
  have hS : (if wS < b.1 then b.1 + m else b.1) = (if b.1 = wS then b.1 else b.1 + m) := by
    split_ifs <;> omega
  simp only [shrink_block, shrink_block_spec, hE, hS]
  split_ifs <;> first | rfl | omega

/-- C6: on merged busy blocks contained in the window, the margin corrector
acts as the spec describes it: shift the start later by the margin unless it
equals `window.start`, shift the end earlier unless it equals `window.end`,
drop collapsed blocks, re-merge; and with margin 15 and window start 09:00
(540), the block 09:00-09:40 becomes 09:00-09:25 when 09:40 < window.end. -/
theorem margin_correct_matches_spec (m wS wE : Int) (blocks : List Block)
    (hcont : ∀ b ∈ blocks, wS ≤ b.1 ∧ b.2 ≤ wE) :
    margin_correct m wS wE blocks = margin_correct_spec m wS wE blocks
    ∧ ∀ wE' : Int, 580 < wE' → margin_correct 15 540 wE' [(540, 580)] = [(540, 565)] := by
  constructor
  · unfold margin_correct margin_correct_spec
    congr 1
    exact List.filterMap_congr
      (fun b hb => shrink_block_eq_spec m wS wE b (hcont b hb).1 (hcont b hb).2)
  · intro wE' hwE'
    have hone : shrink_block 15 540 wE' (540, 580) = some (540, 565) := by
      simp [shrink_block, hwE']
    have htwo : List.filterMap (shrink_block 15 540 wE') [((540 : Int), (580 : Int))]
        = [(540, 565)] := by
      simp [List.filterMap_cons, hone]
    rw [margin_correct, htwo, merge_blocks_singleton]

/-- Concrete instance discharging the hypotheses of
`margin_correct_matches_spec`. -/
theorem margin_correct_matches_spec_witness :
    (∀ b ∈ [((600 : Int), (660 : Int))], (540 : Int) ≤ b.1 ∧ b.2 ≤ 1140)
    ∧ margin_correct 15 540 1140 [((600 : Int), (660 : Int))]
        = margin_correct_spec 15 540 1140 [((600 : Int), (660 : Int))]
    ∧ ((580 : Int) < 1000
      ∧ margin_correct 15 540 1000 [(540, 580)] = [(540, 565)]) :=
  ⟨by decide,
    (margin_correct_matches_spec 15 540 1140 [(600, 660)] (by decide)).1,
    by decide,
    (margin_correct_matches_spec 15 540 1140 [(600, 660)] (by decide)).2 1000 (by decide)⟩

theorem chain_lb : ∀ (t : List Block) (b : Block), disjointChain (b :: t) →
    (∀ x ∈ t, x.1 < x.2) → ∀ x ∈ t, b.2 < x.1
  | [], _, _, _ => by simp
  | c :: t', b, hchain, hwf => by
    obtain ⟨hbc, htail⟩ := List.chain'_cons.1 hchain
    intro x hx
    rcases List.mem_cons.1 hx with rfl | hx'
    · exact hbc
    · have hrec := chain_lb t' c htail (fun y hy => hwf y (List.mem_cons_of_mem _ hy)) x hx'
      have hcwf := hwf c (List.mem_cons_self _ _)
      omega

theorem chain_pairwise : ∀ (l : List Block), disjointChain l → (∀ x ∈ l, x.1 < x.2) →
    l.Pairwise (fun a b => a.2 < b.1)
  | [], _, _ => List.Pairwise.nil
  | b :: t, hchain, hwf =>
    List.pairwise_cons.2
      ⟨chain_lb t b hchain (fun y hy => hwf y (List.mem_cons_of_mem _ hy)),
        chain_pairwise t hchain.tail (fun y hy => hwf y (List.mem_cons_of_mem _ hy))⟩

theorem shrink_block_some (m wS wE : Int) (hm : 0 ≤ m) (b c : Block)
    (h : shrink_block m wS wE b = some c) :
    b.1 ≤ c.1 ∧ c.2 ≤ b.2 ∧ c.1 < c.2 := by
  obtain ⟨c1, c2⟩ := c
  simp only [shrink_block] at h
  split_ifs at h <;> simp only [Option.some.injEq, Prod.mk.injEq] at h <;> omega

/-- C7: the margin corrector never expands a busy block: on a merged
(ordered disjoint, positive-length) block list contained in the window and a
non-negative margin, every output block of the corrector (after re-merging)
lies inside some input block. -/
theorem margin_correct_never_expands (m wS wE : Int) (blocks : List Block)
    (hm : 0 ≤ m) (hchain : disjointChain blocks) (hwf : ∀ b ∈ blocks, b.1 < b.2)
    (_hcont : ∀ b ∈ blocks, wS ≤ b.1 ∧ b.2 ≤ wE) :
    ∀ c ∈ margin_correct m wS wE blocks, ∃ b ∈ blocks, b.1 ≤ c.1 ∧ c.2 ≤ b.2 := by
  have hpairS : (blocks.filterMap (shrink_block m wS wE)).Pairwise (fun a b => a.2 < b.1) := by
    refine List.pairwise_filterMap.2 (List.Pairwise.imp ?_ (chain_pairwise blocks hchain hwf))
    intro a b hab c hc d hd
    have hac := shrink_block_some m wS wE hm a c (Option.mem_def.1 hc)
    have hbd := shrink_block_some m wS wE hm b d (Option.mem_def.1 hd)
    omega
  have hwfS : ∀ c ∈ blocks.filterMap (shrink_block m wS wE), c.1 < c.2 := by
    intro c hc
    obtain ⟨b, _, hfb⟩ := List.mem_filterMap.1 hc
    exact (shrink_block_some m wS wE hm b c hfb).2.2
  have hsortS : sortedByStart (blocks.filterMap (shrink_block m wS wE)) :=
    hpairS.imp_of_mem (fun ha _ h => by have := hwfS _ ha; omega)
  have heq : margin_correct m wS wE blocks = blocks.filterMap (shrink_block m wS wE) := by
    unfold margin_correct
    exact merge_blocks_eq_self _ hsortS hpairS.chain'
  rw [heq]
  intro c hc
  obtain ⟨b, hb, hfb⟩ := List.mem_filterMap.1 hc
  have h := shrink_block_some m wS wE hm b c hfb
  exact ⟨b, hb, h.1, h.2.1⟩

/-- Concrete instance discharging the hypotheses of
`margin_correct_never_expands`. -/
theorem margin_correct_never_expands_witness :
    ∃ b ∈ [((600 : Int), (660 : Int))], b.1 ≤ (615 : Int) ∧ (645 : Int) ≤ b.2 :=
  margin_correct_never_expands 15 540 1140 [(600, 660)] (by decide)
    (List.chain'_singleton _) (by decide) (by decide) (615, 645)
    (by rw [margin_correct, show List.filterMap (shrink_block 15 540 1140) [((600 : Int), (660 : Int))] = [(615, 645)] from by decide, merge_blocks_singleton]; decide)

/-- C8: when the fetch of calendar availability fails with any exception,
`build_availability_for_car` does not propagate the failure: it returns the
fail-open default with `no_availability_all_day = false` and an empty
conflict summary. -/
theorem fetch_failure_fail_open (threshold margin start_dt end_dt : Int) (err : Unit) :
    build_availability_for_car threshold margin start_dt end_dt (Except.error err)
      = ⟨false, ""⟩ := rfl

/-- Unfolding lemma for `build_from_slots`. -/
theorem build_from_slots_eq (threshold margin start_dt end_dt : Int) (slots : List RawSlot) :
    build_from_slots threshold margin start_dt end_dt slots =
      ⟨!free_scan threshold end_dt start_dt (conflict_blocks_of start_dt end_dt slots),
        if (if !free_scan threshold end_dt start_dt (conflict_blocks_of start_dt end_dt slots)
            then conflict_blocks_of start_dt end_dt slots
            else margin_correct margin start_dt end_dt (conflict_blocks_of start_dt end_dt slots)).isEmpty
        then ""
        else format_blocks
          (if !free_scan threshold end_dt start_dt (conflict_blocks_of start_dt end_dt slots)
            then conflict_blocks_of start_dt end_dt slots
            else margin_correct margin start_dt end_dt (conflict_blocks_of start_dt end_dt slots))⟩ :=
  rfl

/-- C9: a raw slot record is silently dropped exactly when it is not a dict
or a marker is missing or unparsable (and dropping it never changes the
resource's result); otherwise a numeric `refuelTime` is added to the parsed
end marker, so start 12:00 (720), end 12:30 (750), refuel 20 gives the
effective block 12:00-12:50 (720, 770). -/
theorem slot_conversion_correct :
    (∀ slot : RawSlot, slotInterval slot = none ↔
      (slot.isDict = false ∨ slot.startDate.parses = false ∨ slot.endDate.parses = false))
    ∧ (∀ s e r : Int, slotInterval ⟨true, .parsed s, .parsed e, some r⟩ = some (s, e + r))
    ∧ (∀ s e : Int, slotInterval ⟨true, .parsed s, .parsed e, none⟩ = some (s, e))
    ∧ slotInterval ⟨true, .parsed 720, .parsed 750, some 20⟩ = some (720, 770)
    ∧ ∀ (threshold margin start_dt end_dt : Int) (pre post : List RawSlot) (bad : RawSlot),
        slotInterval bad = none →
        build_from_slots threshold margin start_dt end_dt (pre ++ bad :: post)
          = build_from_slots threshold margin start_dt end_dt (pre ++ post) := by
  refine ⟨?_, fun s e r => rfl, fun s e => rfl, rfl, ?_⟩
  · rintro ⟨d, sm, em, r⟩
    cases d <;> cases sm <;> cases em <;> simp [slotInterval, Marker.parses]
  · intro threshold margin start_dt end_dt pre post bad hbad
    have hblocks : conflict_blocks_of start_dt end_dt (pre ++ bad :: post)
        = conflict_blocks_of start_dt end_dt (pre ++ post) := by
      unfold conflict_blocks_of
      congr 1
      simp [List.filterMap_append, List.filterMap_cons, hbad]
    rw [build_from_slots_eq, build_from_slots_eq, hblocks]

/-- Concrete instance discharging the hypothesis of the record-dropping part
of `slot_conversion_correct`. -/
theorem slot_conversion_correct_witness :
    slotInterval ⟨true, .missing, .parsed 0, some 0⟩ = none
    ∧ build_from_slots 30 15 540 1140
        ([⟨true, .parsed 600, .parsed 660, some 0⟩] ++ ⟨true, .missing, .parsed 0, some 0⟩ :: [])
      = build_from_slots 30 15 540 1140 ([⟨true, .parsed 600, .parsed 660, some 0⟩] ++ []) :=
  ⟨by decide,
    slot_conversion_correct.2.2.2.2 30 15 540 1140
      [⟨true, .parsed 600, .parsed 660, some 0⟩] [] ⟨true, .missing, .parsed 0, some 0⟩
      (by decide)⟩

/-- C1 counterexample: with window 09:00-19:00 (540..1140), threshold 30,
margin 15 and one busy slot covering the whole window, the pipeline reports
`fullyUnavailable = true` yet the conflict summary is NOT the empty string
(it is the formatted full busy block, "09:00–19:00"). -/
theorem full_day_nonempty_summary_cex :
    (build_availability_for_car 30 15 540 1140
        (Except.ok [⟨true, .parsed 540, .parsed 1140, some 0⟩])).no_availability_all_day = true
    ∧ (build_availability_for_car 30 15 540 1140
        (Except.ok [⟨true, .parsed 540, .parsed 1140, some 0⟩])).conflict_tijden ≠ "" := by
  have hb : conflict_blocks_of 540 1140 [⟨true, .parsed 540, .parsed 1140, some 0⟩]
      = [((540 : Int), (1140 : Int))] := merge_blocks_singleton (540, 1140)
  constructor
  · show (build_from_slots 30 15 540 1140
        [⟨true, .parsed 540, .parsed 1140, some 0⟩]).no_availability_all_day = true
    rw [build_from_slots_eq, hb]
    rfl
  · show (build_from_slots 30 15 540 1140
        [⟨true, .parsed 540, .parsed 1140, some 0⟩]).conflict_tijden ≠ ""
    rw [build_from_slots_eq, hb]
    decide

/-- C1 amended: whenever the pipeline classifies a resource as fully
unavailable, the margin corrector is skipped and the conflict summary is the
formatted merged window-clipped busy list, which is the empty string only
when that merged list is empty (not in general). -/
theorem full_day_summary_amended (threshold margin start_dt end_dt : Int)
    (slots : List RawSlot)
    (h : (build_from_slots threshold margin start_dt end_dt slots).no_availability_all_day
          = true) :
    (build_from_slots threshold margin start_dt end_dt slots).conflict_tijden
      = if (conflict_blocks_of start_dt end_dt slots).isEmpty then ""
        else format_blocks (conflict_blocks_of start_dt end_dt slots) := by
  have h' : (!free_scan threshold end_dt start_dt (conflict_blocks_of start_dt end_dt slots))
      = true := h
  rw [build_from_slots_eq]
  show (if (if (!free_scan threshold end_dt start_dt (conflict_blocks_of start_dt end_dt slots))
        then conflict_blocks_of start_dt end_dt slots
        else margin_correct margin start_dt end_dt (conflict_blocks_of start_dt end_dt slots)).isEmpty
      then ""
      else format_blocks
        (if (!free_scan threshold end_dt start_dt (conflict_blocks_of start_dt end_dt slots))
          then conflict_blocks_of start_dt end_dt slots
          else margin_correct margin start_dt end_dt (conflict_blocks_of start_dt end_dt slots)))
      = _
  rw [h']
  simp only [if_true]

/-- Concrete instance discharging the hypothesis of
`full_day_summary_amended`. -/
theorem full_day_summary_amended_witness :
    (build_from_slots 30 15 540 1140
        [⟨true, .parsed 540, .parsed 1140, some 0⟩]).no_availability_all_day = true
    ∧ (build_from_slots 30 15 540 1140
        [⟨true, .parsed 540, .parsed 1140, some 0⟩]).conflict_tijden
      = if (conflict_blocks_of 540 1140 [⟨true, .parsed 540, .parsed 1140, some 0⟩]).isEmpty
        then ""
        else format_blocks (conflict_blocks_of 540 1140 [⟨true, .parsed 540, .parsed 1140, some 0⟩]) := by
  have hb : conflict_blocks_of 540 1140 [⟨true, .parsed 540, .parsed 1140, some 0⟩]
      = [((540 : Int), (1140 : Int))] := merge_blocks_singleton (540, 1140)
  have hna : (build_from_slots 30 15 540 1140
      [⟨true, .parsed 540, .parsed 1140, some 0⟩]).no_availability_all_day = true := by
    rw [build_from_slots_eq, hb]
    rfl
  exact ⟨hna, full_day_summary_amended 30 15 540 1140 _ hna⟩

/-- Concrete instance discharging the hypothesis of `merge_blocks_disjoint`. -/
theorem merge_blocks_disjoint_witness :
    (∀ b ∈ [((0 : Int), (2 : Int)), (1, 4)], b.1 < b.2)
    ∧ (merge_blocks [((0 : Int), (2 : Int)), (1, 4)]).Chain' (fun a b => ¬(b.1 ≤ a.2))
    ∧ sortedByStart (merge_blocks [((0 : Int), (2 : Int)), (1, 4)]) :=
  ⟨by decide,
    (merge_blocks_disjoint.1 [(0, 2), (1, 4)] (by decide)).1,
    (merge_blocks_disjoint.1 [(0, 2), (1, 4)] (by decide)).2⟩
